import Mathlib

/-!
Verification of the MapReduce-style flight aggregation pipeline in
`FlightAnalyzer` (Task A - main.py).

The pipeline is embedded shallowly:

* a CSV row is a `List String` (the fields produced by the CSV reader);
* Python dicts with default values (`defaultdict(int)`, `defaultdict(list)`)
  are embedded as total functions `String → Nat` and `String → List β`
  (a key absent from the dict maps to `0` / `[]`);
* the items view of the final counts dict, as consumed by `find_top`,
  is an association list `List (String × Nat)`;
* an exception raised by a chunk task and re-raised by `fut.result()`
  is an `Except` value.

The threaded execution of `_process_chunk` is embedded as sequential
chunk processing; all properties proved here concern counts, sums and
list lengths, which are unaffected by the interleaving order of the
per-chunk work.
-/

namespace FlightAnalyzer

/-- Embedding of Python `str.strip()`: remove leading and trailing
whitespace characters. -/
def pyStrip (s : String) : String :=
  String.mk (((s.data.dropWhile fun c => c.isWhitespace).reverse.dropWhile
    fun c => c.isWhitespace).reverse)

/-- Embedding of `FlightAnalyzer.map_row`: read fields 1, 0, 2, 3 of the
row, strip them, and return `(pid, 1, flight_no, (frm, to))`; any index
error (fewer than 4 fields) makes the `try` block fail and the method
return `None`. -/
def map_row (row : List String) : Option (String × Nat × String × (String × String)) :=
  match row[1]?, row[0]?, row[2]?, row[3]? with
  | some pid, some flight_no, some frm, some dst =>
      some (pyStrip pid, 1, pyStrip flight_no, (pyStrip frm, pyStrip dst))
  | _, _, _, _ => none

/-- `partial[pid] += one` on a `defaultdict(int)` embedded as a function. -/
def bump (f : String → Nat) (pid : String) (one : Nat) : String → Nat :=
  fun x => if x = pid then f x + one else f x

/-- `d[pid].append(b)` on a `defaultdict(list)` embedded as a function. -/
def push {β : Type} (f : String → List β) (pid : String) (b : β) : String → List β :=
  fun x => if x = pid then f x ++ [b] else f x

/-- The loop body of `_process_chunk`: skip rows with fewer than 4 fields,
map the row, and on success bump the local count and append the flight
number and route to the shared per-passenger lists. The state is the
triple (local count dict, `self.flights`, `self.routes`). -/
def chunkStep (st : (String → Nat) × (String → List String) × (String → List (String × String)))
    (row : List String) :
    (String → Nat) × (String → List String) × (String → List (String × String)) :=
  if row.length < 4 then st
  else
    match map_row row with
    | none => st
    | some (pid, one, flight_no, route) =>
        (bump st.1 pid one, push st.2.1 pid flight_no, push st.2.2 pid route)

/-- Embedding of `FlightAnalyzer._process_chunk`: fold the loop body over
the chunk, starting from an empty local count and the current shared
`flights` / `routes` state; returns the local count together with the
updated shared state. -/
def _process_chunk (chunk : List (List String)) (flights : String → List String)
    (routes : String → List (String × String)) :
    (String → Nat) × (String → List String) × (String → List (String × String)) :=
  chunk.foldl chunkStep ((fun _ => 0), flights, routes)

/-- Embedding of the chunk list built in `map_phase`:
`chunks = [rows[i:i+size] for i in range(0, len(rows), size)]` with
`size ≥ 1`.  (The `size = 0` branch is unreachable in the program, since
`map_phase` always passes `max(1, ...)`; it is given the empty result.) -/
def chunksOf {α : Type} (size : Nat) (rows : List α) : List (List α) :=
  if h : size = 0 ∨ rows.isEmpty then []
  else rows.take size :: chunksOf size (rows.drop size)
termination_by rows.length
decreasing_by
  push_neg at h
  have hpos : 0 < rows.length := by
    cases rows with
    | nil => simp [List.isEmpty] at h
    | cons a t => simp
  have hs : 0 < size := Nat.pos_of_ne_zero h.1
  simp only [List.length_drop]
  omega

/-- The partition computed by `map_phase`:
`size = max(1, len(rows) // max_workers)` followed by the slicing above. -/
def mapPhaseChunks {α : Type} (rows : List α) (max_workers : Nat) : List (List α) :=
  chunksOf (max 1 (rows.length / max_workers)) rows

/-- Embedding of the collection loop of `map_phase`: process the chunks,
threading the shared `flights` / `routes` state through, and collect
the local count dict of each chunk into the partial-count list. -/
def map_phase (chunks : List (List (List String))) :
    List (String → Nat) × (String → List String) × (String → List (String × String)) :=
  chunks.foldl
    (fun acc chunk =>
      let r := _process_chunk chunk acc.2.1 acc.2.2
      (acc.1 ++ [r.1], r.2.1, r.2.2))
    ([], (fun _ => []), (fun _ => []))

/-- Embedding of `FlightAnalyzer.reduce_phase`: starting from an empty
`defaultdict(int)`, add every partial count into the global counts. -/
def reduce_phase (ps : List (String → Nat)) : String → Nat :=
  ps.foldl (fun acc p => fun k => acc k + p k) (fun _ => 0)

/-- Embedding of `FlightAnalyzer.find_top` on the items view of
`self.counts`: `max(self.counts.values())` raises `ValueError` on an
empty dict (embedded as `none`); otherwise the maximum count is returned
together with the keys whose count equals it, in iteration order. -/
def find_top (counts : List (String × Nat)) : Option (Nat × List String) :=
  match counts.map Prod.snd with
  | [] => none
  | v :: vs =>
      let max_count := vs.foldl max v
      some (max_count, (counts.filter (fun p => p.2 == max_count)).map Prod.fst)

/-- The successfully mapped records of a chunk: rows with at least 4
fields, sent through `map_row` (rows with fewer than 4 fields are
skipped before `map_row` is called). -/
def mappedOf (chunk : List (List String)) : List (String × Nat × String × (String × String)) :=
  chunk.filterMap (fun row => if row.length < 4 then none else map_row row)

/-- The local count dict of a chunk, as a function (the first component
of `_process_chunk` run from a fresh shared state). -/
def chunkCount (chunk : List (List String)) : String → Nat :=
  (_process_chunk chunk (fun _ => []) (fun _ => [])).1

/-- The items view of the local count dict of a chunk: one entry per distinct
passenger key occurring among the successfully mapped records. -/
def chunkDict (chunk : List (List String)) : List (String × Nat) :=
  (((mappedOf chunk).map (fun m => m.1)).dedup).map (fun k => (k, chunkCount chunk k))

/-- The items view of the global counts dict produced by running the full
pipeline on `rows` with `max_workers = W`: one entry per distinct
passenger key among the successfully mapped records, with the value the
reduced global count. -/
def globalDict (rows : List (List String)) (W : Nat) : List (String × Nat) :=
  (((mappedOf rows).map (fun m => m.1)).dedup).map
    (fun k => (k, reduce_phase (map_phase (mapPhaseChunks rows W)).1 k))

/-- The warnings logged while `_process_chunk` runs on a chunk: rows with
fewer than 4 fields are skipped silently by the `continue`, while a row
on which `map_row` fails makes `map_row` log one warning. -/
def processChunkLog (chunk : List (List String)) : List String :=
  chunk.foldl
    (fun log row =>
      if row.length < 4 then log
      else
        match map_row row with
        | none => log ++ ["Failed to map row"]
        | some _ => log)
    []

/-- Embedding of the result-collection loop of `map_phase`:
`for fut in as_completed(futures): self.partial_counts.append(fut.result())`.
The outcome of each chunk task is an `Except` value (`Except.error` embeds an
exception raised inside the combiner and re-raised by `fut.result()`);
the first error aborts the collection and propagates. -/
def collectStep {α : Type} (acc : Except String (List α)) (r : Except String α) :
    Except String (List α) :=
  match acc, r with
  | Except.error e, _ => Except.error e
  | Except.ok _, Except.error e => Except.error e
  | Except.ok ps, Except.ok p => Except.ok (ps ++ [p])

def collectPartials {α : Type} (results : List (Except String α)) : Except String (List α) :=
  results.foldl collectStep (Except.ok [])

/-- The count contribution of a chunk to a single passenger key. -/
def keyCount (chunk : List (List String)) (k : String) : Nat :=
  ((mappedOf chunk).filter (fun m => m.1 == k)).length

/-- The flight numbers a chunk appends to `self.flights[k]`. -/
def keyFlights (chunk : List (List String)) (k : String) : List String :=
  ((mappedOf chunk).filter (fun m => m.1 == k)).map (fun m => m.2.2.1)

/-- The routes a chunk appends to `self.routes[k]`. -/
def keyRoutes (chunk : List (List String)) (k : String) : List (String × String) :=
  ((mappedOf chunk).filter (fun m => m.1 == k)).map (fun m => m.2.2.2)

/-! ### Basic lemmas about the row mapper and the mapped-record view -/

/-- On a row with at least 4 fields every index access in `map_row`
succeeds, so the `try` block returns normally. -/
lemma map_row_total (row : List String) (h : 4 ≤ row.length) :
    map_row row = some (pyStrip (row.getD 1 ""), 1, pyStrip (row.getD 0 ""),
      (pyStrip (row.getD 2 ""), pyStrip (row.getD 3 ""))) := by
  rcases row with _ | ⟨a, row⟩
  · simp only [List.length_nil] at h; omega
  rcases row with _ | ⟨b, row⟩
  · simp only [List.length_cons, List.length_nil] at h; omega
  rcases row with _ | ⟨c, row⟩
  · simp only [List.length_cons, List.length_nil] at h; omega
  rcases row with _ | ⟨d, row⟩
  · simp only [List.length_cons, List.length_nil] at h; omega
  simp [map_row, List.getD]

lemma map_row_total_ex (row : List String) (h : 4 ≤ row.length) :
    ∃ pid fn frm dst, map_row row = some (pid, 1, fn, (frm, dst)) :=
  ⟨_, _, _, _, map_row_total row h⟩

lemma mappedOf_nil : mappedOf [] = [] := rfl

lemma mappedOf_cons_short (row : List String) (c : List (List String))
    (h : row.length < 4) : mappedOf (row :: c) = mappedOf c := by
  simp [mappedOf, List.filterMap_cons, h]

lemma mappedOf_cons_mapped (row : List String) (c : List (List String))
    (h : ¬ row.length < 4) (m : String × Nat × String × (String × String))
    (hm : map_row row = some m) : mappedOf (row :: c) = m :: mappedOf c := by
  simp [mappedOf, List.filterMap_cons, h, hm]

lemma mappedOf_append (a b : List (List String)) :
    mappedOf (a ++ b) = mappedOf a ++ mappedOf b := by
  simp [mappedOf, List.filterMap_append]

/-! ### Characterization of `_process_chunk` -/

lemma foldl_chunkStep_spec (c : List (List String)) :
    ∀ (p0 : String → Nat) (fl0 : String → List String)
      (rt0 : String → List (String × String)) (k : String),
      ((c.foldl chunkStep (p0, fl0, rt0)).1 k = p0 k + keyCount c k)
      ∧ ((c.foldl chunkStep (p0, fl0, rt0)).2.1 k = fl0 k ++ keyFlights c k)
      ∧ ((c.foldl chunkStep (p0, fl0, rt0)).2.2 k = rt0 k ++ keyRoutes c k) := by
  induction c with
  | nil =>
    intro p0 fl0 rt0 k
    simp [keyCount, keyFlights, keyRoutes, mappedOf]
  | cons row c ih =>
    intro p0 fl0 rt0 k
    by_cases hlen : row.length < 4
    · have hstep : chunkStep (p0, fl0, rt0) row = (p0, fl0, rt0) := by
        simp [chunkStep, hlen]
      have hm := mappedOf_cons_short row c hlen
      rw [List.foldl_cons, hstep]
      simpa [keyCount, keyFlights, keyRoutes, hm] using ih p0 fl0 rt0 k
    · have h4 : 4 ≤ row.length := by omega
      obtain ⟨pid, fn, frm, dst, hmr⟩ := map_row_total_ex row h4
      have hstep : chunkStep (p0, fl0, rt0) row
          = (bump p0 pid 1, push fl0 pid fn, push rt0 pid (frm, dst)) := by
        simp [chunkStep, hlen, hmr]
      have hm := mappedOf_cons_mapped row c hlen _ hmr
      rw [List.foldl_cons, hstep]
      obtain ⟨ih1, ih2, ih3⟩ := ih (bump p0 pid 1) (push fl0 pid fn) (push rt0 pid (frm, dst)) k
      refine ⟨?_, ?_, ?_⟩
      · rw [ih1]
        by_cases hk : pid = k
        · subst hk
          simp [keyCount, hm, List.filter_cons, bump]
          omega
        · have hk2 : ¬ k = pid := fun h2 => hk h2.symm
          simp [keyCount, hm, List.filter_cons, bump, hk, hk2]
      · rw [ih2]
        by_cases hk : pid = k
        · subst hk
          simp [keyFlights, hm, List.filter_cons, push]
        · have hk2 : ¬ k = pid := fun h2 => hk h2.symm
          simp [keyFlights, hm, List.filter_cons, push, hk, hk2]
      · rw [ih3]
        by_cases hk : pid = k
        · subst hk
          simp [keyRoutes, hm, List.filter_cons, push]
        · have hk2 : ¬ k = pid := fun h2 => hk h2.symm
          simp [keyRoutes, hm, List.filter_cons, push, hk, hk2]

lemma process_chunk_count (chunk : List (List String)) (fl : String → List String)
    (rt : String → List (String × String)) (k : String) :
    (_process_chunk chunk fl rt).1 k = keyCount chunk k := by
  simpa [_process_chunk] using (foldl_chunkStep_spec chunk (fun _ => 0) fl rt k).1

lemma process_chunk_flights (chunk : List (List String)) (fl : String → List String)
    (rt : String → List (String × String)) (k : String) :
    (_process_chunk chunk fl rt).2.1 k = fl k ++ keyFlights chunk k :=
  (foldl_chunkStep_spec chunk (fun _ => 0) fl rt k).2.1

lemma process_chunk_routes (chunk : List (List String)) (fl : String → List String)
    (rt : String → List (String × String)) (k : String) :
    (_process_chunk chunk fl rt).2.2 k = rt k ++ keyRoutes chunk k :=
  (foldl_chunkStep_spec chunk (fun _ => 0) fl rt k).2.2

lemma chunkCount_eq_keyCount (chunk : List (List String)) (k : String) :
    chunkCount chunk k = keyCount chunk k :=
  process_chunk_count chunk _ _ k

lemma keyCount_append (a b : List (List String)) (k : String) :
    keyCount (a ++ b) k = keyCount a k + keyCount b k := by
  simp [keyCount, mappedOf_append, List.filter_append]

lemma keyFlights_append (a b : List (List String)) (k : String) :
    keyFlights (a ++ b) k = keyFlights a k ++ keyFlights b k := by
  simp [keyFlights, mappedOf_append, List.filter_append]

lemma keyRoutes_append (a b : List (List String)) (k : String) :
    keyRoutes (a ++ b) k = keyRoutes a k ++ keyRoutes b k := by
  simp [keyRoutes, mappedOf_append, List.filter_append]

lemma keyFlights_length (c : List (List String)) (k : String) :
    (keyFlights c k).length = keyCount c k := by
  simp [keyFlights, keyCount]

lemma keyCount_join (L : List (List (List String))) (k : String) :
    keyCount L.flatten k = (L.map (fun c => keyCount c k)).sum := by
  induction L with
  | nil => simp [keyCount, mappedOf]
  | cons c cs ih => simp [List.flatten, keyCount_append, ih]

/-! ### Characterization of `map_phase` and `reduce_phase` -/

lemma map_phase_foldl (chunks : List (List (List String))) :
    ∀ (acc : List (String → Nat)) (fl : String → List String)
      (rt : String → List (String × String)),
      chunks.foldl
          (fun acc chunk =>
            let r := _process_chunk chunk acc.2.1 acc.2.2
            (acc.1 ++ [r.1], r.2.1, r.2.2)) (acc, fl, rt)
        = (acc ++ chunks.map chunkCount,
           fun k => fl k ++ keyFlights chunks.flatten k,
           fun k => rt k ++ keyRoutes chunks.flatten k) := by
  induction chunks with
  | nil =>
    intro acc fl rt
    refine Prod.ext (by simp) (Prod.ext ?_ ?_)
    · funext k; simp [List.flatten, keyFlights, mappedOf]
    · funext k; simp [List.flatten, keyRoutes, mappedOf]
  | cons c cs ih =>
    intro acc fl rt
    rw [List.foldl_cons]
    show cs.foldl _ (acc ++ [(_process_chunk c fl rt).1],
        (_process_chunk c fl rt).2.1, (_process_chunk c fl rt).2.2) = _
    rw [ih]
    refine Prod.ext ?_ (Prod.ext ?_ ?_)
    · show acc ++ [(_process_chunk c fl rt).1] ++ cs.map chunkCount
        = acc ++ (c :: cs).map chunkCount
      have h1 : (_process_chunk c fl rt).1 = chunkCount c := by
        funext k
        rw [process_chunk_count, chunkCount_eq_keyCount]
      simp [h1]
    · show (fun k => (_process_chunk c fl rt).2.1 k ++ keyFlights cs.flatten k) = _
      funext k
      simp [process_chunk_flights, List.flatten, keyFlights_append]
    · show (fun k => (_process_chunk c fl rt).2.2 k ++ keyRoutes cs.flatten k) = _
      funext k
      simp [process_chunk_routes, List.flatten, keyRoutes_append]

lemma map_phase_fst (chunks : List (List (List String))) :
    (map_phase chunks).1 = chunks.map chunkCount := by
  rw [map_phase, map_phase_foldl chunks [] (fun _ => []) (fun _ => [])]
  simp

lemma map_phase_flights (chunks : List (List (List String))) (k : String) :
    (map_phase chunks).2.1 k = keyFlights chunks.flatten k := by
  rw [map_phase, map_phase_foldl chunks [] (fun _ => []) (fun _ => [])]
  simp

lemma reduce_phase_spec (ps : List (String → Nat)) (k : String) :
    reduce_phase ps k = (ps.map (fun p => p k)).sum := by
  have haux : ∀ (qs : List (String → Nat)) (acc : String → Nat),
      (qs.foldl (fun acc p => fun k => acc k + p k) acc) k
        = acc k + (qs.map (fun p => p k)).sum := by
    intro qs
    induction qs with
    | nil => intro acc; simp
    | cons p qs ih =>
      intro acc
      rw [List.foldl_cons, ih]
      simp [Nat.add_assoc]
  simpa [reduce_phase] using haux ps (fun _ => 0)

lemma reduce_map_phase (chunks : List (List (List String))) (k : String) :
    reduce_phase (map_phase chunks).1 k = keyCount chunks.flatten k := by
  rw [reduce_phase_spec, map_phase_fst, keyCount_join]
  rw [List.map_map]
  have hfun : ((fun p => p k) ∘ chunkCount) = fun c => keyCount c k := by
    funext c
    simp [Function.comp, chunkCount_eq_keyCount]
  rw [hfun]

/-! ### The partition built by `map_phase` -/

lemma chunksOf_nil (size : Nat) : chunksOf size ([] : List α) = [] := by
  rw [chunksOf]
  simp

lemma chunksOf_eq_cons (size : Nat) (rows : List α) (hs : size ≠ 0) (hr : rows ≠ []) :
    chunksOf size rows = rows.take size :: chunksOf size (rows.drop size) := by
  rw [chunksOf]
  have hcond : ¬ (size = 0 ∨ rows.isEmpty) := by
    simp [hs, List.isEmpty_iff, hr]
  simp only [hcond, dite_false]

lemma chunksOf_flatten (size : Nat) (hs : 1 ≤ size) (rows : List α) :
    (chunksOf size rows).flatten = rows := by
  by_cases hr : rows = []
  · subst hr
    simp [chunksOf_nil]
  · rw [chunksOf_eq_cons size rows (by omega) hr, List.flatten_cons,
      chunksOf_flatten size hs (rows.drop size)]
    exact List.take_append_drop size rows
termination_by rows.length
decreasing_by
  have hpos : 0 < rows.length := List.length_pos.mpr hr
  simp only [List.length_drop]
  omega

lemma chunksOf_shape (size : Nat) (hs : 1 ≤ size) (rows : List α) (hr : rows ≠ []) :
    chunksOf size rows ≠ []
    ∧ (∀ c ∈ (chunksOf size rows).dropLast, c.length = size)
    ∧ ∃ lastc, (chunksOf size rows).getLast? = some lastc
        ∧ 1 ≤ lastc.length ∧ lastc.length ≤ size := by
  have hpos : 0 < rows.length := List.length_pos.mpr hr
  rw [chunksOf_eq_cons size rows (by omega) hr]
  by_cases hd : rows.drop size = []
  · have hle : rows.length ≤ size := List.drop_eq_nil_iff.mp hd
    rw [hd, chunksOf_nil]
    refine ⟨by simp, by simp, rows.take size, by simp, ?_, ?_⟩
    · simp only [List.length_take]
      omega
    · simp only [List.length_take]
      omega
  · have hlt : size < rows.length := by
      by_contra hcon
      exact hd (List.drop_eq_nil_iff.mpr (by omega))
    obtain ⟨h1, h2, lastc, h3, h4, h5⟩ := chunksOf_shape size hs (rows.drop size) hd
    rcases hcl : chunksOf size (rows.drop size) with _ | ⟨b, t⟩
    · exact absurd hcl h1
    · rw [hcl] at h2 h3
      refine ⟨by simp, ?_, lastc, ?_, h4, h5⟩
      · intro c hc
        rw [List.dropLast_cons₂, List.mem_cons] at hc
        rcases hc with hc | hc
        · subst hc
          simp only [List.length_take]
          omega
        · exact h2 c hc
      · rw [List.getLast?_cons_cons]
        exact h3
termination_by rows.length
decreasing_by
  simp only [List.length_drop]
  omega

/-! ### The maximum computed by `find_top` -/

lemma le_foldl_max (v : Nat) (vs : List Nat) : v ≤ vs.foldl max v := by
  induction vs generalizing v with
  | nil => exact le_refl v
  | cons x xs ih => exact le_trans (Nat.le_max_left v x) (ih (max v x))

lemma mem_le_foldl_max (vs : List Nat) : ∀ (v x : Nat), x ∈ vs → x ≤ vs.foldl max v := by
  induction vs with
  | nil =>
    intro v x hx
    cases hx
  | cons y ys ih =>
    intro v x hx
    rw [List.foldl_cons]
    rcases List.mem_cons.mp hx with h | h
    · subst h
      exact le_trans (Nat.le_max_right v x) (le_foldl_max (max v x) ys)
    · exact ih (max v y) x h

lemma foldl_max_mem (vs : List Nat) : ∀ v : Nat, vs.foldl max v = v ∨ vs.foldl max v ∈ vs := by
  induction vs with
  | nil =>
    intro v
    exact Or.inl rfl
  | cons y ys ih =>
    intro v
    rw [List.foldl_cons]
    rcases ih (max v y) with h | h
    · rcases max_choice v y with h2 | h2
      · exact Or.inl (h.trans h2)
      · right
        rw [h, h2]
        exact List.mem_cons_self y ys
    · exact Or.inr (List.mem_cons_of_mem y h)

lemma find_top_eq_none_iff (d : List (String × Nat)) : find_top d = none ↔ d = [] := by
  cases d with
  | nil => simp [find_top]
  | cons p ps => simp [find_top]

/-- `find_top` on a non-empty dict returns the maximum of the values and
the filtered key list. -/
lemma find_top_max_spec (d : List (String × Nat)) (hne : d ≠ []) :
    ∃ m tops, find_top d = some (m, tops)
      ∧ (∀ q ∈ d, q.2 ≤ m) ∧ (∃ q ∈ d, q.2 = m)
      ∧ tops = (d.filter (fun q => q.2 == m)).map Prod.fst := by
  cases d with
  | nil => exact absurd rfl hne
  | cons p ps =>
    refine ⟨(ps.map Prod.snd).foldl max p.2, _, by simp [find_top], ?_, ?_, rfl⟩
    · intro q hq
      rcases List.mem_cons.mp hq with h | h
      · subst h
        exact le_foldl_max _ _
      · exact mem_le_foldl_max _ _ _ (List.mem_map_of_mem Prod.snd h)
    · rcases foldl_max_mem (ps.map Prod.snd) p.2 with h | h
      · exact ⟨p, List.mem_cons_self p ps, h.symm⟩
      · rcases List.mem_map.mp h with ⟨q, hq, hq2⟩
        exact ⟨q, List.mem_cons_of_mem p hq, hq2⟩

lemma max_val_unique (d : List (String × Nat)) (m1 m2 : Nat)
    (h1ub : ∀ q ∈ d, q.2 ≤ m1) (h1mem : ∃ q ∈ d, q.2 = m1)
    (h2ub : ∀ q ∈ d, q.2 ≤ m2) (h2mem : ∃ q ∈ d, q.2 = m2) : m1 = m2 := by
  obtain ⟨q1, hq1, he1⟩ := h1mem
  obtain ⟨q2, hq2, he2⟩ := h2mem
  exact le_antisymm (he1 ▸ h2ub q1 hq1) (he2 ▸ h1ub q2 hq2)

lemma mem_tops_iff (d : List (String × Nat)) (m : Nat) (k : String) :
    k ∈ (d.filter (fun q => q.2 == m)).map Prod.fst ↔ (k, m) ∈ d := by
  constructor
  · intro hk
    rcases List.mem_map.mp hk with ⟨q, hq, hq1⟩
    rcases List.mem_filter.mp hq with ⟨hqd, hq2⟩
    have hq2e : q.2 = m := by simpa using hq2
    have : q = (k, m) := by
      rcases q with ⟨a, b⟩
      simp only at hq1 hq2e
      rw [hq1, hq2e]
    exact this ▸ hqd
  · intro hk
    exact List.mem_map.mpr ⟨(k, m), List.mem_filter.mpr ⟨hk, by simp⟩, rfl⟩

/-! ### Counting lemmas for the partial-count dict -/

lemma keyCount_eq_count (chunk : List (List String)) (k : String) :
    keyCount chunk k = ((mappedOf chunk).map (fun m => m.1)).count k := by
  rw [keyCount, List.count_eq_countP, ← List.countP_eq_length_filter, List.countP_map]
  rfl

lemma toFinset_dedup_list (l : List String) : l.dedup.toFinset = l.toFinset := by
  apply Finset.ext
  intro a
  simp [List.mem_toFinset, List.mem_dedup]

lemma sum_dedup_map (l : List String) (f : String → Nat) :
    ((l.dedup).map f).sum = ∑ a in l.toFinset, f a := by
  rw [← List.sum_toFinset f l.nodup_dedup, toFinset_dedup_list]

/-! ### The warning log of `_process_chunk` -/

lemma processChunkLog_eq_nil (chunk : List (List String)) : processChunkLog chunk = [] := by
  have haux : ∀ (c : List (List String)) (log : List String),
      c.foldl
          (fun log row =>
            if row.length < 4 then log
            else
              match map_row row with
              | none => log ++ ["Failed to map row"]
              | some _ => log) log = log := by
    intro c
    induction c with
    | nil => intro log; rfl
    | cons row c ih =>
      intro log
      rw [List.foldl_cons]
      by_cases hlen : row.length < 4
      · rw [if_pos hlen]
        exact ih log
      · have h4 : 4 ≤ row.length := by omega
        obtain ⟨pid, fn, frm, dst, hmr⟩ := map_row_total_ex row h4
        rw [if_neg hlen, hmr]
        exact ih log
  exact haux chunk []

/-! ### Error propagation in the collection loop -/

lemma foldl_collectStep_error {α : Type} (l : List (Except String α)) (e : String) :
    l.foldl collectStep (Except.error e) = Except.error e := by
  induction l with
  | nil => rfl
  | cons r l ih =>
    rw [List.foldl_cons]
    show l.foldl collectStep (Except.error e) = Except.error e
    exact ih

lemma collectPartials_error_of_mem {α : Type} (results : List (Except String α)) :
    ∀ (acc : List α) (e : String), Except.error e ∈ results →
      ∃ e2, results.foldl collectStep (Except.ok acc) = Except.error e2 := by
  induction results with
  | nil =>
    intro acc e he
    cases he
  | cons r rs ih =>
    intro acc e he
    rw [List.foldl_cons]
    rcases List.mem_cons.mp he with h | h
    · subst h
      exact ⟨e, foldl_collectStep_error rs e⟩
    · cases r with
      | error e3 =>
        exact ⟨e3, foldl_collectStep_error rs e3⟩
      | ok p =>
        exact ih (acc ++ [p]) e h

/-! ### Emptiness of the global dict -/

lemma globalDict_eq_nil_iff (rows : List (List String)) (W : Nat) :
    globalDict rows W = [] ↔ mappedOf rows = [] := by
  rw [globalDict]
  constructor
  · intro h
    have h2 := List.map_eq_nil_iff.mp h
    have h3 := (List.dedup_eq_nil _).mp h2
    exact List.map_eq_nil_iff.mp h3
  · intro h
    rw [h]
    rfl

lemma mappedOf_length (chunk : List (List String)) :
    (mappedOf chunk).length = (chunk.filter (fun r => decide (4 ≤ r.length))).length := by
  induction chunk with
  | nil => rfl
  | cons row c ih =>
    by_cases hlen : row.length < 4
    · have hdec : decide (4 ≤ row.length) = false := by
        simp only [decide_eq_false_iff_not]
        omega
      rw [List.filter_cons, hdec, mappedOf_cons_short row c hlen]
      simpa using ih
    · have h4 : 4 ≤ row.length := by omega
      have hdec : decide (4 ≤ row.length) = true := by simp [h4]
      obtain ⟨pid, fn, frm, dst, hmr⟩ := map_row_total_ex row h4
      rw [mappedOf_cons_mapped row c hlen _ hmr, List.filter_cons, hdec]
      simp [ih]

lemma mappedOf_filter (chunk : List (List String)) :
    mappedOf (chunk.filter (fun r => decide (4 ≤ r.length))) = mappedOf chunk := by
  induction chunk with
  | nil => rfl
  | cons row c ih =>
    by_cases hlen : row.length < 4
    · have hdec : decide (4 ≤ row.length) = false := by
        simp only [decide_eq_false_iff_not]
        omega
      rw [List.filter_cons, hdec, mappedOf_cons_short row c hlen]
      simpa using ih
    · have h4 : 4 ≤ row.length := by omega
      have hdec : decide (4 ≤ row.length) = true := by simp [h4]
      obtain ⟨pid, fn, frm, dst, hmr⟩ := map_row_total_ex row h4
      rw [List.filter_cons, hdec]
      simp only [if_true]
      rw [mappedOf_cons_mapped row c hlen _ hmr,
        mappedOf_cons_mapped row (c.filter (fun r => decide (4 ≤ r.length))) hlen _ hmr,
        ih]

/-! ### Claim theorems -/

/-- C1: after `map_phase` and `reduce_phase`, for every passenger key the
global count equals the sum of the per-chunk partial counts for that key,
and also equals the length of the accumulated flight-number list
`self.flights[k]`. -/
theorem three_way_equality (chunks : List (List (List String))) (k : String) :
    reduce_phase (map_phase chunks).1 k
        = ((map_phase chunks).1.map (fun p => p k)).sum
    ∧ reduce_phase (map_phase chunks).1 k = ((map_phase chunks).2.1 k).length := by
  refine ⟨reduce_phase_spec _ k, ?_⟩
  rw [reduce_map_phase, map_phase_flights, keyFlights_length]

/-- C2: for any two ways of splitting a record list into chunks, running
the chunk combiner on each chunk and merging with `reduce_phase` yields
the same global counts, which equal the counts obtained from processing
the whole list as a single chunk. -/
theorem partition_invariance (chunks1 chunks2 : List (List (List String)))
    (rows : List (List String)) (h1 : chunks1.flatten = rows) (h2 : chunks2.flatten = rows)
    (k : String) :
    reduce_phase (map_phase chunks1).1 k = reduce_phase (map_phase chunks2).1 k
    ∧ reduce_phase (map_phase chunks1).1 k = chunkCount rows k := by
  have e1 : reduce_phase (map_phase chunks1).1 k = keyCount rows k := by
    rw [reduce_map_phase, h1]
  have e2 : reduce_phase (map_phase chunks2).1 k = keyCount rows k := by
    rw [reduce_map_phase, h2]
  exact ⟨e1.trans e2.symm, e1.trans (chunkCount_eq_keyCount rows k).symm⟩

theorem partition_invariance_witness :
    ([[["FL1", "P1", "JFK", "LAX"]], [["FL2", "P1", "LAX", "JFK"]]].flatten
        = [["FL1", "P1", "JFK", "LAX"], ["FL2", "P1", "LAX", "JFK"]]
      ∧ [[["FL1", "P1", "JFK", "LAX"], ["FL2", "P1", "LAX", "JFK"]]].flatten
        = [["FL1", "P1", "JFK", "LAX"], ["FL2", "P1", "LAX", "JFK"]])
    ∧ reduce_phase (map_phase [[["FL1", "P1", "JFK", "LAX"]], [["FL2", "P1", "LAX", "JFK"]]]).1 "P1"
        = reduce_phase (map_phase [[["FL1", "P1", "JFK", "LAX"], ["FL2", "P1", "LAX", "JFK"]]]).1 "P1"
    ∧ reduce_phase (map_phase [[["FL1", "P1", "JFK", "LAX"]], [["FL2", "P1", "LAX", "JFK"]]]).1 "P1"
        = chunkCount [["FL1", "P1", "JFK", "LAX"], ["FL2", "P1", "LAX", "JFK"]] "P1" :=
  ⟨⟨rfl, rfl⟩,
   partition_invariance [[["FL1", "P1", "JFK", "LAX"]], [["FL2", "P1", "LAX", "JFK"]]]
     [[["FL1", "P1", "JFK", "LAX"], ["FL2", "P1", "LAX", "JFK"]]]
     [["FL1", "P1", "JFK", "LAX"], ["FL2", "P1", "LAX", "JFK"]] rfl rfl "P1"⟩

/-- C3: for every record list and every worker count `W ≥ 1`, the chunks
produced in `map_phase` concatenate back, in chunk order, to the original
record list (so they are contiguous and non-overlapping), including the
degenerate case where the list is shorter than `W`. -/
theorem partition_completeness {α : Type} (rows : List α) (W : Nat) (hW : 1 ≤ W) :
    (mapPhaseChunks rows W).flatten = rows :=
  chunksOf_flatten _ (le_max_left 1 _) rows

theorem partition_completeness_witness :
    1 ≤ 4 ∧ (mapPhaseChunks [["a"], ["b"], ["c"]] 4).flatten = [["a"], ["b"], ["c"]] :=
  ⟨by decide, partition_completeness [["a"], ["b"], ["c"]] 4 (by decide)⟩

/-- C4: the partitioner uses chunk size `max 1 (n / W)`; every chunk
except possibly the last has exactly that size, and the last chunk is
non-empty and no larger than that size. -/
theorem chunk_shape {α : Type} (rows : List α) (W : Nat) (hr : rows ≠ []) :
    mapPhaseChunks rows W ≠ []
    ∧ (∀ c ∈ (mapPhaseChunks rows W).dropLast, c.length = max 1 (rows.length / W))
    ∧ ∃ lastc, (mapPhaseChunks rows W).getLast? = some lastc
        ∧ 1 ≤ lastc.length ∧ lastc.length ≤ max 1 (rows.length / W) :=
  chunksOf_shape _ (le_max_left 1 _) rows hr

theorem chunk_shape_witness :
    ([1, 2, 3, 4, 5] : List Nat) ≠ []
    ∧ (mapPhaseChunks [1, 2, 3, 4, 5] 2 ≠ []
      ∧ (∀ c ∈ (mapPhaseChunks [1, 2, 3, 4, 5] 2).dropLast,
          c.length = max 1 (([1, 2, 3, 4, 5] : List Nat).length / 2))
      ∧ ∃ lastc, (mapPhaseChunks [1, 2, 3, 4, 5] 2).getLast? = some lastc
          ∧ 1 ≤ lastc.length
          ∧ lastc.length ≤ max 1 (([1, 2, 3, 4, 5] : List Nat).length / 2)) :=
  ⟨by decide, chunk_shape [1, 2, 3, 4, 5] 2 (by decide)⟩

/-- C5: on a non-empty count dict, `find_top` returns the maximum count
together with every key achieving it (ties preserved), and the result is
determined by the key-to-count mapping alone: any permutation of the
dict items (any iteration order) yields the same maximum and the same
top keys up to permutation. -/
theorem find_top_tie_preservation (d : List (String × Nat)) (hne : d ≠ []) :
    ∃ m tops, find_top d = some (m, tops)
      ∧ (∀ q ∈ d, q.2 ≤ m)
      ∧ (∃ q ∈ d, q.2 = m)
      ∧ (∀ k : String, k ∈ tops ↔ (k, m) ∈ d)
      ∧ (∀ d2 : List (String × Nat), d.Perm d2 →
          ∃ tops2, find_top d2 = some (m, tops2) ∧ tops.Perm tops2) := by
  obtain ⟨m, tops, hft, hub, hmem, htops⟩ := find_top_max_spec d hne
  refine ⟨m, tops, hft, hub, hmem, ?_, ?_⟩
  · intro k
    rw [htops]
    exact mem_tops_iff d m k
  · intro d2 hperm
    have hne2 : d2 ≠ [] := by
      intro h2
      subst h2
      exact hne hperm.eq_nil
  -- the max over d2 agrees with the max over d, by antisymmetry
    obtain ⟨m2, tops2, hft2, hub2, hmem2, htops2⟩ := find_top_max_spec d2 hne2
    have hmeq : m = m2 := by
      apply max_val_unique d m m2 hub hmem
      · intro q hq
        exact hub2 q (hperm.mem_iff.mp hq)
      · obtain ⟨q, hq, he⟩ := hmem2
        exact ⟨q, hperm.mem_iff.mpr hq, he⟩
    subst hmeq
    refine ⟨tops2, hft2, ?_⟩
    rw [htops, htops2]
    exact (hperm.filter _).map Prod.fst

theorem find_top_tie_preservation_witness :
    find_top [("A", 3), ("B", 3), ("C", 1)] = some (3, ["A", "B"])
    ∧ ∃ m tops, find_top [("A", 3), ("B", 3), ("C", 1)] = some (m, tops)
      ∧ (∀ q ∈ ([("A", 3), ("B", 3), ("C", 1)] : List (String × Nat)), q.2 ≤ m)
      ∧ (∃ q ∈ ([("A", 3), ("B", 3), ("C", 1)] : List (String × Nat)), q.2 = m)
      ∧ (∀ k : String, k ∈ tops ↔ (k, m) ∈ ([("A", 3), ("B", 3), ("C", 1)] : List (String × Nat)))
      ∧ (∀ d2 : List (String × Nat), List.Perm [("A", 3), ("B", 3), ("C", 1)] d2 →
          ∃ tops2, find_top d2 = some (m, tops2) ∧ tops.Perm tops2) :=
  ⟨rfl, find_top_tie_preservation [("A", 3), ("B", 3), ("C", 1)] (by decide)⟩

/-- C6: the Top-Resolver reports an error (the `ValueError` raised by
`max()` on an empty sequence, embedded as `none`) exactly when the run
produced zero valid mappings; in particular it never silently returns a
`(0, [])` result on empty aggregation. -/
theorem empty_aggregation_error (rows : List (List String)) (W : Nat) :
    find_top (globalDict rows W) = none ↔ mappedOf rows = [] := by
  rw [find_top_eq_none_iff]
  exact globalDict_eq_nil_iff rows W

theorem empty_aggregation_error_witness :
    find_top (globalDict [["badrow"]] 4) = none ↔ mappedOf [["badrow"]] = [] :=
  empty_aggregation_error [["badrow"]] 4

/-- C7: the sum of the values of the partial count of a chunk equals the number
of successfully mapped records of the chunk (which is the number of rows
with at least 4 fields), and every key present in the partial count has
a count of at least 1. -/
theorem combiner_sum (chunk : List (List String)) :
    ((chunkDict chunk).map Prod.snd).sum = (mappedOf chunk).length
    ∧ (mappedOf chunk).length = (chunk.filter (fun r => decide (4 ≤ r.length))).length
    ∧ ∀ q ∈ chunkDict chunk, 1 ≤ q.2 := by
  have hkeys : ∀ k, chunkCount chunk k = ((mappedOf chunk).map (fun m => m.1)).count k :=
    fun k => (chunkCount_eq_keyCount chunk k).trans (keyCount_eq_count chunk k)
  refine ⟨?_, mappedOf_length chunk, ?_⟩
  · rw [chunkDict, List.map_map]
    have hfun : (Prod.snd ∘ fun k => (k, chunkCount chunk k))
        = fun k => ((mappedOf chunk).map (fun m => m.1)).count k := by
      funext k
      simp [Function.comp, hkeys k]
    rw [hfun, sum_dedup_map, List.sum_toFinset_count_eq_length, List.length_map]
  · intro q hq
    rw [chunkDict] at hq
    rcases List.mem_map.mp hq with ⟨k, hk, rfl⟩
    have hkmem : k ∈ (mappedOf chunk).map (fun m => m.1) := List.mem_dedup.mp hk
    have hpos := List.count_pos_iff.mpr hkmem
    have : 1 ≤ chunkCount chunk k := by
      rw [hkeys k]
      omega
    simpa using this

theorem combiner_sum_witness :
    ((chunkDict [["FL1", "P1", "JFK", "LAX"], ["x"], ["FL2", "P1", "LAX", "JFK"]]).map
        Prod.snd).sum
      = (mappedOf [["FL1", "P1", "JFK", "LAX"], ["x"], ["FL2", "P1", "LAX", "JFK"]]).length
    ∧ 1 ≤ ((("P1" : String), (2 : Nat)) : String × Nat).2 :=
  ⟨(combiner_sum _).1,
   (combiner_sum [["FL1", "P1", "JFK", "LAX"], ["x"], ["FL2", "P1", "LAX", "JFK"]]).2.2
     ("P1", 2) (by decide)⟩

/-- C8 counterexample: the record `["FL1", "P1", "JFK"]` has fewer than 4
fields; `_process_chunk` drops it, but no warning is logged for it (the
`continue` is silent), contradicting the claim that every malformed
record is logged. -/
theorem malformed_row_warning_missing :
    processChunkLog [["FL1", "P1", "JFK"]] = []
    ∧ chunkCount [["FL1", "P1", "JFK"]] "P1" = 0 :=
  ⟨rfl, rfl⟩

/-- C8 (amended): a record with fewer than 4 fields is dropped silently by
`_process_chunk` — no warning is logged for it (the `map_row` warning
branch is unreachable because rows reaching `map_row` always have at
least 4 string fields) — and the dropped records contribute nothing to
the counts; processing of the remaining records continues unchanged and
the pipeline never aborts on a malformed record. -/
theorem malformed_rows_skipped (chunk : List (List String)) :
    processChunkLog chunk = []
    ∧ ∀ k, chunkCount chunk k
        = chunkCount (chunk.filter (fun r => decide (4 ≤ r.length))) k := by
  refine ⟨processChunkLog_eq_nil chunk, ?_⟩
  intro k
  rw [chunkCount_eq_keyCount, chunkCount_eq_keyCount, keyCount, keyCount, mappedOf_filter]

/-- C9: if the execution of any chunk combiner raises an exception, the
exception propagates out of the collection loop of `map_phase`: the
collected result is an error and no list of partial counts is produced. -/
theorem chunk_failure_fatal {α : Type} (results : List (Except String α)) (e : String)
    (h : Except.error e ∈ results) :
    ∃ e2, collectPartials results = Except.error e2 :=
  collectPartials_error_of_mem results [] e h

theorem chunk_failure_fatal_witness :
    Except.error "boom" ∈ [Except.ok (1 : Nat), Except.error "boom"]
    ∧ ∃ e2, collectPartials [Except.ok (1 : Nat), Except.error "boom"] = Except.error e2 :=
  ⟨by simp, chunk_failure_fatal [Except.ok (1 : Nat), Except.error "boom"] "boom" (by simp)⟩

/-- C10: on any row with at least 4 fields, `map_row` succeeds and returns
`(row[1].strip(), 1, row[0].strip(), (row[2].strip(), row[3].strip()))`;
its failure branch is unreachable for such rows, so inside
`_process_chunk` the only skipped records are those with fewer than 4
fields (the mapped records are exactly the rows with at least 4
fields). -/
theorem map_row_wellformed (row : List String) (h : 4 ≤ row.length) :
    map_row row = some (pyStrip (row.getD 1 ""), 1, pyStrip (row.getD 0 ""),
      (pyStrip (row.getD 2 ""), pyStrip (row.getD 3 "")))
    ∧ ∀ chunk : List (List String),
        (mappedOf chunk).length = (chunk.filter (fun r => decide (4 ≤ r.length))).length :=
  ⟨map_row_total row h, mappedOf_length⟩

theorem map_row_wellformed_witness :
    4 ≤ (["FL1", " P1 ", "JFK", "LAX"] : List String).length
    ∧ map_row ["FL1", " P1 ", "JFK", "LAX"]
        = some (pyStrip ((["FL1", " P1 ", "JFK", "LAX"] : List String).getD 1 ""), 1,
            pyStrip ((["FL1", " P1 ", "JFK", "LAX"] : List String).getD 0 ""),
            (pyStrip ((["FL1", " P1 ", "JFK", "LAX"] : List String).getD 2 ""),
              pyStrip ((["FL1", " P1 ", "JFK", "LAX"] : List String).getD 3 ""))) :=
  ⟨by decide, (map_row_wellformed ["FL1", " P1 ", "JFK", "LAX"] (by decide)).1⟩

end FlightAnalyzer
